import Mathlib

/-!
Verification of the TFTP datagram codec and option-processing layer of
`python-tx-tftp`.  The definitions below are a shallow embedding of
`tftp/datagram.py` (wire codec) plus, where the repository's
`tftp/bootstrap.py` / `tftp/session.py` are not part of the provided
sources, models built from the specification (each such definition is
marked `Modelled from the spec:` in its doc comment).

Bytes are modelled as `Fin 256`; byte strings as `List (Fin 256)`.
Python exceptions raised by the parsers are modelled with `Except`;
the exception *classes* are kept, their message strings are dropped.
-/

namespace TxTftp

/-- A single octet, as in a Python `bytes` element. -/
abbrev Byte := Fin 256

/-- A Python byte string. -/
abbrev Bytes := List Byte

/-- Truncate a natural number into one octet (the low byte). -/
def byte (n : Nat) : Byte := ⟨n % 256, Nat.mod_lt _ (by norm_num)⟩

/-- `struct.pack("!H", n)`: two-byte big-endian encoding (defined for n < 65536). -/
def pack16 (n : Nat) : Bytes := [byte (n / 256), byte n]

/-- The exception classes of `tftp/errors.py` raised by the codec
(`WireProtocolError`, `InvalidOpcodeError`, `PayloadDecodeError`,
`InvalidErrorcodeError`, `OptionsDecodeError`); message strings dropped. -/
inductive DecodeError where
  | wireProtocol : DecodeError
  | invalidOpcode : Nat → DecodeError
  | payloadDecode : DecodeError
  | invalidErrorcode : Nat → DecodeError
  | optionsDecode : DecodeError
deriving DecidableEq, Repr

instance {ε α : Type} [DecidableEq ε] [DecidableEq α] :
    DecidableEq (Except ε α) := fun x y =>
  match x, y with
  | .ok a, .ok b =>
    if h : a = b then isTrue (by rw [h])
    else isFalse (by intro e; cases e; exact h rfl)
  | .error a, .error b =>
    if h : a = b then isTrue (by rw [h])
    else isFalse (by intro e; cases e; exact h rfl)
  | .ok _, .error _ => isFalse (fun e => Except.noConfusion e)
  | .error _, .ok _ => isFalse (fun e => Except.noConfusion e)

/-- The six TFTP datagram kinds of `tftp/datagram.py`
(`RRQDatagram`, `WRQDatagram`, `DATADatagram`, `ACKDatagram`,
`ERRORDatagram`, `OACKDatagram`).  Option maps are insertion-ordered
association lists, as `OrderedDict` in the source. -/
inductive Packet where
  | rrq : Bytes → Bytes → List (Bytes × Bytes) → Packet
  | wrq : Bytes → Bytes → List (Bytes × Bytes) → Packet
  | data : Nat → Bytes → Packet
  | ack : Nat → Packet
  | err : Nat → Bytes → Packet
  | oack : List (Bytes × Bytes) → Packet
deriving DecidableEq, Repr

/-- The `errors` table of `tftp/datagram.py`: canonical default message
for each of the nine error codes. -/
def errors (code : Nat) : Bytes :=
  match code with
  | 0 => []
  | 1 => [70, 105, 108, 101, 32, 110, 111, 116, 32, 102, 111, 117, 110, 100]
  | 2 => [65, 99, 99, 101, 115, 115, 32, 118, 105, 111, 108, 97, 116, 105, 111, 110]
  | 3 => [68, 105, 115, 107, 32, 102, 117, 108, 108, 32, 111, 114, 32, 97, 108, 108,
          111, 99, 97, 116, 105, 111, 110, 32, 101, 120, 99, 101, 101, 100, 101, 100]
  | 4 => [73, 108, 108, 101, 103, 97, 108, 32, 84, 70, 84, 80, 32, 111, 112, 101,
          114, 97, 116, 105, 111, 110]
  | 5 => [85, 110, 107, 110, 111, 119, 110, 32, 116, 114, 97, 110, 115, 102, 101,
          114, 32, 73, 68]
  | 6 => [70, 105, 108, 101, 32, 97, 108, 114, 101, 97, 100, 121, 32, 101, 120,
          105, 115, 116, 115]
  | 7 => [78, 111, 32, 115, 117, 99, 104, 32, 117, 115, 101, 114]
  | 8 => [84, 101, 114, 109, 105, 110, 97, 116, 101, 32, 116, 114, 97, 110, 115,
          102, 101, 114, 32, 100, 117, 101, 32, 116, 111, 32, 111, 112, 116, 105,
          111, 110, 32, 110, 101, 103, 111, 116, 105, 97, 116, 105, 111, 110]
  | _ => []

/-- `payload.split(b'\x00')`: split a byte string on NUL separators.
Always returns at least one fragment (Python `b''.split` gives `[b'']`). -/
def splitNul : Bytes → List Bytes
  | [] => [[]]
  | b :: rest =>
    if b = 0 then [] :: splitNul rest
    else
      match splitNul rest with
      | [] => [[b]]
      | f :: tail => (b :: f) :: tail

/-- `b'\x00'.join(chunks)`: interleave NUL separators between fragments. -/
def interNul : List Bytes → Bytes
  | [] => []
  | [x] => x
  | x :: y :: rest => x ++ (0 : Byte) :: interNul (y :: rest)

/-- The RQDatagram.from_wire loop `while parts and not parts[-1]: parts.pop(-1)`:
drop every trailing empty fragment. -/
def stripTrailing (l : List Bytes) : List Bytes :=
  (l.reverse.dropWhile (fun f => f = [])).reverse

/-- The OACKDatagram.from_wire step `if parts and not parts[-1]: parts.pop(-1)`:
drop at most one trailing empty fragment. -/
def stripOne (l : List Bytes) : List Bytes :=
  match l.getLast? with
  | some [] => l.dropLast
  | _ => l

/-- `chain.from_iterable(options.items())`: flatten option pairs into the
alternating name/value fragment list. -/
def flattenPairs : List (Bytes × Bytes) → List Bytes
  | [] => []
  | (n, v) :: rest => n :: v :: flattenPairs rest

/-- Group an (even-length) fragment list into (name, value) pairs. -/
def pairUp : List Bytes → List (Bytes × Bytes)
  | n :: v :: rest => (n, v) :: pairUp rest
  | _ => []

/-- The option-accumulation loop shared by RQDatagram.from_wire and
OACKDatagram.from_wire: take fragments two at a time, rejecting an
option name already present (`Duplicate option specified`). -/
def addOpts (acc : List (Bytes × Bytes)) : List Bytes → Except DecodeError (List (Bytes × Bytes))
  | [] => .ok acc
  | [_] => .error .optionsDecode
  | n :: v :: rest =>
    if n ∈ acc.map Prod.fst then .error .optionsDecode
    else addOpts (acc ++ [(n, v)]) rest

/-- Parse a fragment list as option pairs: the parity check
(`No value for option`) followed by the accumulation loop. -/
def parseOptPairs (parts : List Bytes) : Except DecodeError (List (Bytes × Bytes)) :=
  if parts.length % 2 = 1 then .error .optionsDecode
  else addOpts [] parts

/-- `bytes.lower()` on one octet: map ASCII `A`-`Z` to `a`-`z`. -/
def lowerByte (b : Byte) : Byte :=
  if 65 ≤ b.val ∧ b.val ≤ 90 then byte (b.val + 32) else b

/-- `bytes.lower()`. -/
def lowerBytes (bs : Bytes) : Bytes := bs.map lowerByte

/-- The option part of RQDatagram.from_wire applied to the fragments that
remain after filename and mode: strip all trailing empty fragments, then
parse option pairs. -/
def rqOptionsPart (parts : List Bytes) : Except DecodeError (List (Bytes × Bytes)) :=
  parseOptPairs (stripTrailing parts)

/-- RQDatagram.from_wire: split on NUL, pop filename and mode (fewer than
two fields is a `PayloadDecodeError`), parse the remaining fragments as
options; the constructor lowercases the mode. -/
def rqFromWire (payload : Bytes) : Except DecodeError (Bytes × Bytes × List (Bytes × Bytes)) :=
  match splitNul payload with
  | f :: m :: rest => (rqOptionsPart rest).map (fun opts => (f, lowerBytes m, opts))
  | _ => .error .payloadDecode

/-- OACKDatagram.from_wire option parsing: split on NUL, strip at most one
trailing empty fragment, parse option pairs. -/
def oackParse (payload : Bytes) : Except DecodeError (List (Bytes × Bytes)) :=
  parseOptPairs (stripOne (splitNul payload))

/-- DATADatagram.from_wire: two-byte big-endian block number, rest is data;
fewer than two bytes is a `PayloadDecodeError`. -/
def dataFromWire (payload : Bytes) : Except DecodeError Packet :=
  match payload with
  | b0 :: b1 :: rest => .ok (.data (b0.val * 256 + b1.val) rest)
  | _ => .error .payloadDecode

/-- ACKDatagram.from_wire: `struct.unpack('!H', payload)` requires the
payload to be exactly two bytes. -/
def ackFromWire (payload : Bytes) : Except DecodeError Packet :=
  match payload with
  | [b0, b1] => .ok (.ack (b0.val * 256 + b1.val))
  | _ => .error .payloadDecode

/-- ERRORDatagram.from_wire: two-byte big-endian error code (must be a key
of `errors`, i.e. in 0..8), then the message is the part of the remainder
before the first NUL; an empty message is replaced by the canonical one. -/
def errFromWire (payload : Bytes) : Except DecodeError Packet :=
  match payload with
  | b0 :: b1 :: rest =>
    let code := b0.val * 256 + b1.val
    if code ≤ 8 then
      let msg := (splitNul rest).headI
      .ok (.err code (if msg = [] then errors code else msg))
    else .error (.invalidErrorcode code)
  | _ => .error .payloadDecode

/-- `split_opcode`: two-byte big-endian opcode, rest is the payload;
fewer than two bytes is a `WireProtocolError`. -/
def split_opcode (datagram : Bytes) : Except DecodeError (Nat × Bytes) :=
  match datagram with
  | b0 :: b1 :: rest => .ok (b0.val * 256 + b1.val, rest)
  | _ => .error .wireProtocol

/-- The `_TFTPDatagramFactory` dispatch table: per-opcode `from_wire`. -/
def dispatch (opcode : Nat) (payload : Bytes) : Except DecodeError Packet :=
  if opcode = 1 then (rqFromWire payload).map (fun t => Packet.rrq t.1 t.2.1 t.2.2)
  else if opcode = 2 then (rqFromWire payload).map (fun t => Packet.wrq t.1 t.2.1 t.2.2)
  else if opcode = 3 then dataFromWire payload
  else if opcode = 4 then ackFromWire payload
  else if opcode = 5 then errFromWire payload
  else if opcode = 6 then (oackParse payload).map Packet.oack
  else .error (.invalidOpcode opcode)

/-- `TFTPDatagramFactory(*split_opcode(datagram))`: full decode. -/
def decode (datagram : Bytes) : Except DecodeError Packet :=
  match split_opcode datagram with
  | .ok (opcode, payload) => dispatch opcode payload
  | .error e => .error e

/-- The option block of RQDatagram.to_wire / OACKDatagram.to_wire:
empty when there are no options, otherwise the NUL-joined name/value
fragments followed by a terminating NUL. -/
def optsWire (o : List (Bytes × Bytes)) : Bytes :=
  match o with
  | [] => []
  | _ => interNul (flattenPairs o) ++ [(0 : Byte)]

/-- The body of RQDatagram.to_wire after the opcode. -/
def rqBody (f m : Bytes) (o : List (Bytes × Bytes)) : Bytes :=
  f ++ (0 : Byte) :: (m ++ (0 : Byte) :: optsWire o)

/-- `to_wire` for each datagram kind. -/
def toWire : Packet → Bytes
  | .rrq f m o => pack16 1 ++ rqBody f m o
  | .wrq f m o => pack16 2 ++ rqBody f m o
  | .data bn d => pack16 3 ++ pack16 bn ++ d
  | .ack bn => pack16 4 ++ pack16 bn
  | .err c msg => pack16 5 ++ pack16 c ++ msg ++ [(0 : Byte)]
  | .oack o => pack16 6 ++ optsWire o

/-- The RQDatagram constructor lowercases the mode (`self.mode = mode.lower()`). -/
def mkRRQ (f m : Bytes) (o : List (Bytes × Bytes)) : Packet :=
  .rrq f (lowerBytes m) o

/-- The WRQDatagram constructor lowercases the mode (`self.mode = mode.lower()`). -/
def mkWRQ (f m : Bytes) (o : List (Bytes × Bytes)) : Packet :=
  .wrq f (lowerBytes m) o

/-- Option-map well-formedness for encoding: no NUL inside any name or
value, and names pairwise distinct. -/
def optsWF (o : List (Bytes × Bytes)) : Prop :=
  (∀ pr ∈ o, (0 : Byte) ∉ pr.1 ∧ (0 : Byte) ∉ pr.2) ∧ (o.map Prod.fst).Nodup

instance (o : List (Bytes × Bytes)) : Decidable (optsWF o) := by
  unfold optsWF; infer_instance

/-- The value of the last option is non-empty (otherwise the RQ parser's
trailing-empty stripping would swallow it). -/
def lastValNonempty (o : List (Bytes × Bytes)) : Prop :=
  (o.map Prod.snd).getLast? ≠ some []

instance (o : List (Bytes × Bytes)) : Decidable (lastValNonempty o) := by
  unfold lastValNonempty; infer_instance

/-- Well-formedness of a packet for the encode/decode round trip. -/
def wellFormed : Packet → Prop
  | .rrq f m o => (0 : Byte) ∉ f ∧ (0 : Byte) ∉ m ∧ optsWF o ∧ lastValNonempty o
  | .wrq f m o => (0 : Byte) ∉ f ∧ (0 : Byte) ∉ m ∧ optsWF o ∧ lastValNonempty o
  | .data bn _ => bn < 65536
  | .ack bn => bn < 65536
  | .err c msg => c ≤ 8 ∧ (0 : Byte) ∉ msg ∧ (c = 0 ∨ msg ≠ [])
  | .oack o => optsWF o

instance (p : Packet) : Decidable (wellFormed p) := by
  unfold wellFormed; cases p <;> infer_instance

/-- Decoding lowercases the mode of a request; on the other packet kinds
it is the identity. -/
def lowerModePacket : Packet → Packet
  | .rrq f m o => .rrq f (lowerBytes m) o
  | .wrq f m o => .wrq f (lowerBytes m) o
  | p => p

/-- The fragment list ends in two (or more) empty fragments: exactly the
situation where OACK's single-strip and RRQ/WRQ's strip-all differ. -/
def endsWithTwoEmpties (l : List Bytes) : Prop :=
  l.getLast? = some [] ∧ l.dropLast.getLast? = some []

instance (l : List Bytes) : Decidable (endsWithTwoEmpties l) := by
  unfold endsWithTwoEmpties; infer_instance

/-- A sample read request with mixed-case mode and one option, used to
instantiate the round-trip theorem. -/
def samplePacket : Packet :=
  .rrq [102, 111, 111] [79, 67, 84, 69, 84] [([98, 108, 107, 115, 105, 122, 101], [56])]

/-- The digit value of an ASCII byte, if it is `0`-`9`. -/
def digitVal (b : Byte) : Option Nat :=
  if 48 ≤ b.val ∧ b.val ≤ 57 then some (b.val - 48) else none

def parseDecimalAux (acc : Nat) : Bytes → Option Nat
  | [] => some acc
  | b :: rest =>
    match digitVal b with
    | some d => parseDecimalAux (acc * 10 + d) rest
    | none => none

/-- Python `int(value)` on an option value byte string, restricted to the
non-negative decimal numerals the option grammar uses; anything that is
empty or contains a non-digit parses to `none` (a `ValueError`). -/
def parseDecimal : Bytes → Option Nat
  | [] => none
  | b :: rest => parseDecimalAux 0 (b :: rest)

/-- The byte string `blksize`. -/
def blksizeKey : Bytes := [98, 108, 107, 115, 105, 122, 101]

/-- The byte string `timeout`. -/
def timeoutKey : Bytes := [116, 105, 109, 101, 111, 117, 116]

/-- The byte string `tsize`. -/
def tsizeKey : Bytes := [116, 115, 105, 122, 101]

/-- Modelled from the spec: the per-option validation of
`TFTPBootstrap.processOptions` (`tftp/bootstrap.py` is not among the
provided sources; only its tests are).  `blksize` must be an integer in
[8, 65464] inclusive; `timeout` an integer in [1, 255]; `tsize` a
non-negative integer; anything else (unknown name, non-integer value,
out-of-range value) is dropped.  The spec's single clamping sentence for
`blksize` contradicts both its own scenario 3 and the repository test
`TestOptionProcessing.test_blksize` (65465 is dropped, not clamped), so
drop semantics are modelled.  An accepted option is echoed with its value. -/
def processOption (name value : Bytes) : Option Bytes :=
  if name = blksizeKey then
    match parseDecimal value with
    | some n => if 8 ≤ n ∧ n ≤ 65464 then some value else none
    | none => none
  else if name = timeoutKey then
    match parseDecimal value with
    | some n => if 1 ≤ n ∧ n ≤ 255 then some value else none
    | none => none
  else if name = tsizeKey then
    match parseDecimal value with
    | some _ => some value
    | none => none
  else none

/-- Modelled from the spec: `TFTPBootstrap.processOptions` — keep the
accepted options in their original order, dropping rejected ones. -/
def processOptions : List (Bytes × Bytes) → List (Bytes × Bytes)
  | [] => []
  | (n, v) :: rest =>
    match processOption n v with
    | some v2 => (n, v2) :: processOptions rest
    | none => processOptions rest

/-- Modelled from the spec: the session attributes that option
application touches (`block_size` default 512, `timeout` default
(1, 3, 5), `tsize` unset). -/
structure Session where
  block_size : Nat := 512
  timeout : Nat × Nat × Nat := (1, 3, 5)
  tsize : Option Nat := none
deriving DecidableEq, Repr

/-- Modelled from the spec: applying one accepted option to the session. -/
def applyOption (s : Session) (name value : Bytes) : Session :=
  if name = blksizeKey then
    match parseDecimal value with
    | some n => { s with block_size := n }
    | none => s
  else if name = timeoutKey then
    match parseDecimal value with
    | some n => { s with timeout := (n, n, n) }
    | none => s
  else if name = tsizeKey then
    match parseDecimal value with
    | some n => { s with tsize := some n }
    | none => s
  else s

/-- Modelled from the spec: `TFTPBootstrap.applyOptions` — apply every
acknowledged option to the session. -/
def applyOptions (s : Session) : List (Bytes × Bytes) → Session
  | [] => s
  | (n, v) :: rest => applyOptions (applyOption s n v) rest

/-- A transport address (host, port) as the tests use them. -/
structure Addr where
  host : Nat
  port : Nat
deriving DecidableEq, Repr

/-- Modelled from the spec: the lock-step write-session step driven by the
bootstrap once the peer's TID has been checked — `DATA(n)` for the
awaited block is acknowledged and advances the session (block numbers
wrap at 2^16), a duplicate `DATA(n-1)` is re-acknowledged without
advancing, anything else is dropped. -/
structure BootstrapSession where
  remote : Addr
  awaited : Nat
  started : Bool
deriving DecidableEq, Repr

def sessionStep (s : BootstrapSession) (dgram : Packet) :
    BootstrapSession × List (Packet × Addr) :=
  match dgram with
  | .data bn _ =>
    if bn = s.awaited then
      ({ s with awaited := (bn + 1) % 65536, started := true },
        [(.ack bn, s.remote)])
    else if (bn + 1) % 65536 = s.awaited then (s, [(.ack bn, s.remote)])
    else (s, [])
  | _ => (s, [])

/-- Modelled from the spec: the TID guard of `TFTPBootstrap.datagramReceived`
(`tftp/bootstrap.py` is not among the provided sources; only its tests
are).  A datagram whose source address differs from the session's bound
remote TID is answered with an ERROR code 5 to the offender and leaves
the session untouched; datagrams from the bound peer are processed by the
session step. -/
def datagramReceived (s : BootstrapSession) (dgram : Packet) (addr : Addr) :
    BootstrapSession × List (Packet × Addr) :=
  if addr = s.remote then sessionStep s dgram
  else (s, [(.err 5 (errors 5), addr)])

theorem byte_val (b : Byte) : byte b.val = b := by
  apply Fin.ext
  simp [byte, Nat.mod_eq_of_lt b.isLt]

theorem pack16_unpack (b0 b1 : Byte) : pack16 (b0.val * 256 + b1.val) = [b0, b1] := by
  have h1 := b1.isLt
  have e1 : (b0.val * 256 + b1.val) / 256 = b0.val := by omega
  have e2 : byte (b0.val * 256 + b1.val) = byte b1.val := by
    apply Fin.ext
    show (b0.val * 256 + b1.val) % 256 = b1.val % 256
    omega
  rw [pack16, e1, byte_val, e2, byte_val]

/-- C7: ACKDatagram.from_wire succeeds exactly on two-byte payloads,
returning the big-endian block number; every payload of any other length
raises a payload-decode error. -/
theorem C7_ack_exactly_two_bytes (payload : Bytes) :
    (∀ b0 b1 : Byte, payload = [b0, b1] →
        ackFromWire payload = .ok (.ack (b0.val * 256 + b1.val))) ∧
    (payload.length ≠ 2 → ackFromWire payload = .error .payloadDecode) := by
  constructor
  · rintro b0 b1 rfl
    rfl
  · intro h
    match payload, h with
    | [], _ => rfl
    | [_], _ => rfl
    | [_, _], h => exact absurd rfl h
    | _ :: _ :: _ :: _, _ => rfl

/-- C7 witness: the two sides of the theorem at concrete payloads. -/
theorem C7_ack_exactly_two_bytes_witness :
    ackFromWire [0, 5] = .ok (.ack 5) ∧
    ackFromWire [0, 5, 1] = .error .payloadDecode :=
  ⟨(C7_ack_exactly_two_bytes [0, 5]).1 0 5 rfl,
   (C7_ack_exactly_two_bytes [0, 5, 1]).2 (by decide)⟩

/-- C9: for payloads of length at least two, re-encoding the decoded DATA
packet reproduces the input prefixed with the big-endian opcode 3; for
shorter payloads DATADatagram.from_wire raises a payload-decode error. -/
theorem C9_data_rewire (payload : Bytes) :
    (2 ≤ payload.length →
        Except.map toWire (dataFromWire payload) = .ok (pack16 3 ++ payload)) ∧
    (payload.length < 2 → dataFromWire payload = .error .payloadDecode) := by
  constructor
  · intro h
    match payload, h with
    | b0 :: b1 :: rest, _ =>
      simp only [dataFromWire, Except.map, toWire]
      rw [pack16_unpack]
      simp
  · intro h
    match payload, h with
    | [], _ => rfl
    | [_], _ => rfl

/-- C9 witness: the two sides of the theorem at concrete payloads. -/
theorem C9_data_rewire_witness :
    Except.map toWire (dataFromWire [1, 2, 7, 8, 9]) = .ok (pack16 3 ++ [1, 2, 7, 8, 9]) ∧
    dataFromWire [1] = .error .payloadDecode :=
  ⟨(C9_data_rewire [1, 2, 7, 8, 9]).1 (by decide),
   (C9_data_rewire [1]).2 (by decide)⟩

/-- C6: for payloads carrying a two-byte error code, ERRORDatagram.from_wire
raises an invalid-errorcode error exactly when the code is outside 0..8;
and for a valid code with an absent or empty message field, the decoded
datagram carries the canonical default message for that code. -/
theorem C6_error_code_and_default (b0 b1 : Byte) (rest : Bytes) :
    (errFromWire (b0 :: b1 :: rest) = .error (.invalidErrorcode (b0.val * 256 + b1.val)) ↔
        ¬ b0.val * 256 + b1.val ≤ 8) ∧
    (b0.val * 256 + b1.val ≤ 8 → (splitNul rest).headI = [] →
        errFromWire (b0 :: b1 :: rest) =
          .ok (.err (b0.val * 256 + b1.val) (errors (b0.val * 256 + b1.val)))) := by
  constructor
  · constructor
    · intro h hc
      simp only [errFromWire, if_pos hc] at h
      exact Except.noConfusion h
    · intro hc
      simp only [errFromWire, if_neg hc]
  · intro hc hmsg
    simp [errFromWire, if_pos hc, hmsg]

/-- C6 witness: the theorem applied at a concrete payload with code 1 and
an absent message (yielding the canonical message), plus a rejected code. -/
theorem C6_error_code_and_default_witness :
    errFromWire [0, 1] = .ok (.err 1 (errors 1)) ∧
    errFromWire [0, 9, 65, 0] = .error (.invalidErrorcode 9) :=
  ⟨(C6_error_code_and_default 0 1 []).2 (by decide) (by decide),
   (C6_error_code_and_default 0 9 [65, 0]).1.2 (by decide)⟩

theorem splitNul_ne_nil (l : Bytes) : splitNul l ≠ [] := by
  match l with
  | [] => simp [splitNul]
  | b :: rest =>
    simp only [splitNul]
    split
    · simp
    · split <;> simp

theorem splitNul_append_nul (xs : Bytes) (hx : (0 : Byte) ∉ xs) (ys : Bytes) :
    splitNul (xs ++ (0 : Byte) :: ys) = xs :: splitNul ys := by
  induction xs with
  | nil => simp [splitNul]
  | cons b rest ih =>
    have hb : ¬ b = 0 := fun e => hx (by simp [e])
    have hrest : (0 : Byte) ∉ rest := fun hmem => hx (by simp [hmem])
    rw [List.cons_append, splitNul, if_neg hb, ih hrest]

theorem stripTrailing_concat_empty (l : List Bytes) :
    stripTrailing (l ++ [[]]) = stripTrailing l := by
  simp [stripTrailing, List.dropWhile_cons]

theorem stripTrailing_of_getLast? (l : List Bytes) (h : l.getLast? ≠ some []) :
    stripTrailing l = l := by
  rw [stripTrailing]
  cases hr : l.reverse with
  | nil =>
    rw [List.reverse_eq_nil_iff] at hr
    subst hr
    rfl
  | cons x xs =>
    have hx : ¬ x = [] := by
      intro e
      apply h
      rw [← List.head?_reverse, hr, e]
      rfl
    rw [List.dropWhile_cons, if_neg (by simpa using hx), ← hr, List.reverse_reverse]

theorem stripOne_concat_empty (l : List Bytes) : stripOne (l ++ [[]]) = l := by
  unfold stripOne
  rw [List.getLast?_concat]
  exact List.dropLast_concat

theorem stripOne_of_getLast? (l : List Bytes) (h : l.getLast? ≠ some []) :
    stripOne l = l := by
  unfold stripOne
  split
  · next heq => exact absurd heq h
  · rfl

theorem stripOne_eq_stripTrailing (l : List Bytes) (h : ¬ endsWithTwoEmpties l) :
    stripOne l = stripTrailing l := by
  cases hl : l.getLast? with
  | none =>
    rw [List.getLast?_eq_none_iff] at hl
    subst hl
    rfl
  | some x =>
    cases x with
    | nil =>
      obtain ⟨ys, rfl⟩ := List.getLast?_eq_some_iff.mp hl
      rw [stripOne_concat_empty, stripTrailing_concat_empty]
      have h2 : ys.getLast? ≠ some [] := by
        intro e
        exact h ⟨hl, by rw [List.dropLast_concat]; exact e⟩
      exact (stripTrailing_of_getLast? ys h2).symm
    | cons b bs =>
      rw [stripOne_of_getLast? l (by rw [hl]; simp),
          stripTrailing_of_getLast? l (by rw [hl]; simp)]

theorem getLast?_cons_of_ne_nil {α : Type} (a : α) {l : List α} (h : l ≠ []) :
    (a :: l).getLast? = l.getLast? := by
  cases l with
  | nil => exact absurd rfl h
  | cons b bs => exact List.getLast?_cons_cons

theorem flattenPairs_ne_nil (o : List (Bytes × Bytes)) (h : o ≠ []) :
    flattenPairs o ≠ [] := by
  cases o with
  | nil => exact absurd rfl h
  | cons pr rest =>
    obtain ⟨n, v⟩ := pr
    simp [flattenPairs]

theorem flattenPairs_length (o : List (Bytes × Bytes)) :
    (flattenPairs o).length = 2 * o.length := by
  induction o with
  | nil => rfl
  | cons pr rest ih =>
    obtain ⟨n, v⟩ := pr
    simp only [flattenPairs, List.length_cons, ih]
    omega

theorem flattenPairs_getLast? (o : List (Bytes × Bytes)) :
    (flattenPairs o).getLast? = (o.map Prod.snd).getLast? := by
  induction o with
  | nil => rfl
  | cons pr rest ih =>
    obtain ⟨n, v⟩ := pr
    cases rest with
    | nil => rfl
    | cons pr2 rs =>
      have hne : flattenPairs (pr2 :: rs) ≠ [] := flattenPairs_ne_nil _ (by simp)
      calc (flattenPairs ((n, v) :: pr2 :: rs)).getLast?
          = (v :: flattenPairs (pr2 :: rs)).getLast? := by
            rw [flattenPairs, getLast?_cons_of_ne_nil n (List.cons_ne_nil _ _)]
        _ = (flattenPairs (pr2 :: rs)).getLast? := getLast?_cons_of_ne_nil v hne
        _ = (List.map Prod.snd (pr2 :: rs)).getLast? := ih
        _ = (List.map Prod.snd ((n, v) :: pr2 :: rs)).getLast? := by
            rw [show List.map Prod.snd ((n, v) :: pr2 :: rs) =
                  v :: List.map Prod.snd (pr2 :: rs) from rfl,
                getLast?_cons_of_ne_nil v (by simp)]

theorem mem_flattenPairs {c : Bytes} {o : List (Bytes × Bytes)}
    (h : c ∈ flattenPairs o) : ∃ pr ∈ o, c = pr.1 ∨ c = pr.2 := by
  induction o with
  | nil => simp [flattenPairs] at h
  | cons pr rest ih =>
    obtain ⟨n, v⟩ := pr
    simp only [flattenPairs, List.mem_cons] at h
    rcases h with h1 | h1 | h1
    · exact ⟨(n, v), List.mem_cons_self _ _, Or.inl h1⟩
    · exact ⟨(n, v), List.mem_cons_self _ _, Or.inr h1⟩
    · obtain ⟨q, hq, hc⟩ := ih h1
      exact ⟨q, List.mem_cons_of_mem _ hq, hc⟩

theorem flattenPairs_no_nul (o : List (Bytes × Bytes)) (ho : optsWF o) :
    ∀ c ∈ flattenPairs o, (0 : Byte) ∉ c := by
  intro c hc
  obtain ⟨q, hq, hcq⟩ := mem_flattenPairs hc
  cases hcq with
  | inl e => rw [e]; exact (ho.1 q hq).1
  | inr e => rw [e]; exact (ho.1 q hq).2

theorem splitNul_interNul : ∀ (chunks : List Bytes), chunks ≠ [] →
    (∀ c ∈ chunks, (0 : Byte) ∉ c) →
    splitNul (interNul chunks ++ [(0 : Byte)]) = chunks ++ [[]]
  | [], h, _ => absurd rfl h
  | [x], _, hnf => by
    rw [interNul, show x ++ [(0 : Byte)] = x ++ (0 : Byte) :: [] from rfl,
        splitNul_append_nul x (hnf x (by simp)) []]
    rfl
  | x :: y :: rest, _, hnf => by
    have e : interNul (x :: y :: rest) ++ [(0 : Byte)] =
        x ++ (0 : Byte) :: (interNul (y :: rest) ++ [(0 : Byte)]) := by
      rw [interNul]
      simp [List.append_assoc]
    rw [e, splitNul_append_nul x (hnf x (by simp)) _,
        splitNul_interNul (y :: rest) (by simp) (fun c hc => hnf c (by simp [hc]))]
    rfl

theorem addOpts_flattenPairs (o : List (Bytes × Bytes)) :
    ∀ acc : List (Bytes × Bytes),
      (o.map Prod.fst).Nodup →
      (∀ n ∈ o.map Prod.fst, n ∉ acc.map Prod.fst) →
      addOpts acc (flattenPairs o) = .ok (acc ++ o) := by
  induction o with
  | nil =>
    intro acc _ _
    simp [flattenPairs, addOpts]
  | cons pr rest ih =>
    obtain ⟨n, v⟩ := pr
    intro acc hnd hdisj
    simp only [List.map_cons] at hnd hdisj
    have hnd2 := List.nodup_cons.mp hnd
    rw [flattenPairs, addOpts, if_neg (hdisj n (List.mem_cons_self _ _)),
        ih (acc ++ [(n, v)]) hnd2.2 ?disj]
    · simp
    case disj =>
      intro w hw
      simp only [List.map_append, List.mem_append, List.map_cons, List.map_nil,
        List.mem_singleton]
      push_neg
      exact ⟨hdisj w (List.mem_cons_of_mem _ hw), fun e => hnd2.1 (e ▸ hw)⟩

theorem addOpts_error : ∀ (parts : List Bytes) (acc : List (Bytes × Bytes)),
    parts.length % 2 = 0 →
    ((∃ n ∈ (pairUp parts).map Prod.fst, n ∈ acc.map Prod.fst) ∨
        ¬ ((pairUp parts).map Prod.fst).Nodup) →
    addOpts acc parts = .error .optionsDecode
  | [], _, _, h => by simp [pairUp] at h
  | [_], _, h, _ => by simp at h
  | n :: v :: rest, acc, heven, h => by
    rw [addOpts]
    by_cases hn : n ∈ acc.map Prod.fst
    · rw [if_pos hn]
    · rw [if_neg hn]
      apply addOpts_error rest (acc ++ [(n, v)])
      · simp only [List.length_cons] at heven ⊢
        omega
      · simp only [pairUp, List.map_cons] at h
        rcases h with ⟨w, hw, hacc⟩ | hnd
        · rcases List.mem_cons.mp hw with e | hw2
          · exact absurd (e ▸ hacc) hn
          · exact Or.inl ⟨w, hw2, by simp [List.map_append, hacc]⟩
        · rw [List.nodup_cons] at hnd
          push_neg at hnd
          by_cases hmem : n ∈ (pairUp rest).map Prod.fst
          · exact Or.inl ⟨n, hmem, by simp [List.map_append]⟩
          · exact Or.inr (hnd hmem)

theorem flattenPairs_pairUp : ∀ (parts : List Bytes), parts.length % 2 = 0 →
    flattenPairs (pairUp parts) = parts
  | [], _ => rfl
  | [_], h => by simp at h
  | n :: v :: rest, h => by
    rw [pairUp, flattenPairs,
        flattenPairs_pairUp rest (by simp only [List.length_cons] at h; omega)]

theorem parseOptPairs_flattenPairs (o : List (Bytes × Bytes))
    (hnd : (o.map Prod.fst).Nodup) :
    parseOptPairs (flattenPairs o) = .ok o := by
  rw [parseOptPairs, if_neg (by rw [flattenPairs_length]; omega)]
  simpa using addOpts_flattenPairs o [] hnd (by simp)

theorem parseOptPairs_spec (parts : List Bytes) :
    (parseOptPairs parts = .error .optionsDecode ↔
        parts.length % 2 = 1 ∨ ¬ ((pairUp parts).map Prod.fst).Nodup) ∧
    (parts.length % 2 = 0 → ((pairUp parts).map Prod.fst).Nodup →
        parseOptPairs parts = .ok (pairUp parts)) := by
  have hok : parts.length % 2 = 0 → ((pairUp parts).map Prod.fst).Nodup →
      parseOptPairs parts = .ok (pairUp parts) := by
    intro heven hnd
    have h := parseOptPairs_flattenPairs (pairUp parts) hnd
    rwa [flattenPairs_pairUp parts heven] at h
  refine ⟨⟨?_, ?_⟩, hok⟩
  · intro herr
    by_contra hcon
    push_neg at hcon
    obtain ⟨hodd, hnd⟩ := hcon
    rw [hok (by omega) hnd] at herr
    exact Except.noConfusion herr
  · intro h
    rcases h with hodd | hnd
    · rw [parseOptPairs, if_pos hodd]
    · by_cases hpar : parts.length % 2 = 1
      · rw [parseOptPairs, if_pos hpar]
      · rw [parseOptPairs, if_neg hpar]
        exact addOpts_error parts [] (by omega) (Or.inr hnd)

/-- C5: RRQ/WRQ body decoding raises payload-decode iff there are fewer
than two NUL-separated fields; otherwise, with trailing empty fragments
stripped, it raises options-decode exactly when the remaining field count
is odd or an option name repeats, and otherwise returns the option pairs
(with the mode lowercased by the constructor). -/
theorem C5_rq_decode_errors (payload : Bytes) :
    ((splitNul payload).length < 2 → rqFromWire payload = .error .payloadDecode) ∧
    (∀ f m rest, splitNul payload = f :: m :: rest →
        ((rqFromWire payload = .error .optionsDecode ↔
            (stripTrailing rest).length % 2 = 1 ∨
              ¬ ((pairUp (stripTrailing rest)).map Prod.fst).Nodup) ∧
          ((stripTrailing rest).length % 2 = 0 →
              ((pairUp (stripTrailing rest)).map Prod.fst).Nodup →
              rqFromWire payload = .ok (f, lowerBytes m, pairUp (stripTrailing rest))))) := by
  constructor
  · intro hlen
    unfold rqFromWire
    cases hs : splitNul payload with
    | nil => exact absurd hs (splitNul_ne_nil payload)
    | cons a tail =>
      cases tail with
      | nil => rfl
      | cons b t2 =>
        rw [hs, List.length_cons, List.length_cons] at hlen
        exact absurd hlen (by omega)
  · intro f m rest hs
    have hred : rqFromWire payload =
        (rqOptionsPart rest).map (fun opts => (f, lowerBytes m, opts)) := by
      unfold rqFromWire
      rw [hs]
    have hmap_err : ∀ e : DecodeError,
        ((rqOptionsPart rest).map (fun opts => (f, lowerBytes m, opts)) = .error e) ↔
          rqOptionsPart rest = .error e := by
      intro e
      cases hi : rqOptionsPart rest <;> simp [Except.map]
    obtain ⟨hiff, hok⟩ := parseOptPairs_spec (stripTrailing rest)
    constructor
    · rw [hred]
      exact (hmap_err DecodeError.optionsDecode).trans hiff
    · intro heven hnd
      rw [hred]
      unfold rqOptionsPart
      rw [hok heven hnd]
      rfl

/-- C5 witness: a two-field body with one trailing empty fragment decodes
to an empty option map. -/
theorem C5_rq_decode_errors_witness :
    rqFromWire [102, 0, 109, 0] = .ok ([102], [109], []) := by
  have h := ((C5_rq_decode_errors [102, 0, 109, 0]).2 [102] [109] [[]]
    (by decide)).2 (by decide) (by decide)
  exact h.trans (by decide)

/-- C4 counterexample: on the one-byte payload 00, OACK body parsing
raises an options-decode error, while the RRQ/WRQ option-part parsing of
the same fragment list succeeds with an empty option map — so the two
parsings are not the same for every payload. -/
theorem C4_oack_rq_options_cex :
    ¬ oackParse [(0 : Byte)] = rqOptionsPart (splitNul [(0 : Byte)]) := by
  decide

/-- C4 (amended): OACK body parsing agrees with the RRQ/WRQ option-part
parsing (same option map or same options-decode error) whenever the
payload's fragment list does not end in two or more empty fragments; the
two differ in general because OACK strips at most one trailing empty
fragment while RRQ/WRQ strips them all. -/
theorem C4_oack_rq_options_amended (payload : Bytes)
    (h : ¬ endsWithTwoEmpties (splitNul payload)) :
    oackParse payload = rqOptionsPart (splitNul payload) := by
  rw [oackParse, rqOptionsPart, stripOne_eq_stripTrailing _ h]

/-- C4 witness: the amended theorem at a concrete two-option payload. -/
theorem C4_oack_rq_options_amended_witness :
    ¬ endsWithTwoEmpties (splitNul [97, 0, 98, 0]) ∧
    oackParse [97, 0, 98, 0] = rqOptionsPart (splitNul [97, 0, 98, 0]) :=
  ⟨by decide, C4_oack_rq_options_amended [97, 0, 98, 0] (by decide)⟩

theorem rqOptionsPart_optsWire (o : List (Bytes × Bytes)) (ho : optsWF o)
    (hl : lastValNonempty o) :
    rqOptionsPart (splitNul (optsWire o)) = .ok o := by
  cases o with
  | nil => decide
  | cons pr rest =>
    have e : optsWire (pr :: rest) =
        interNul (flattenPairs (pr :: rest)) ++ [(0 : Byte)] := rfl
    rw [e,
        splitNul_interNul (flattenPairs (pr :: rest))
          (flattenPairs_ne_nil _ (List.cons_ne_nil _ _)) (flattenPairs_no_nul _ ho),
        rqOptionsPart, stripTrailing_concat_empty,
        stripTrailing_of_getLast? _ (by rw [flattenPairs_getLast?]; exact hl)]
    exact parseOptPairs_flattenPairs _ ho.2

theorem oackParse_optsWire (o : List (Bytes × Bytes)) (ho : optsWF o) :
    oackParse (optsWire o) = .ok o := by
  cases o with
  | nil => decide
  | cons pr rest =>
    have e : optsWire (pr :: rest) =
        interNul (flattenPairs (pr :: rest)) ++ [(0 : Byte)] := rfl
    rw [oackParse, e,
        splitNul_interNul (flattenPairs (pr :: rest))
          (flattenPairs_ne_nil _ (List.cons_ne_nil _ _)) (flattenPairs_no_nul _ ho),
        stripOne_concat_empty]
    exact parseOptPairs_flattenPairs _ ho.2

theorem rqFromWire_rqBody (f m : Bytes) (o : List (Bytes × Bytes))
    (hf : (0 : Byte) ∉ f) (hm : (0 : Byte) ∉ m) (ho : optsWF o)
    (hl : lastValNonempty o) :
    rqFromWire (rqBody f m o) = .ok (f, lowerBytes m, o) := by
  unfold rqFromWire
  rw [rqBody, splitNul_append_nul f hf, splitNul_append_nul m hm]
  show ((rqOptionsPart (splitNul (optsWire o))).map
      (fun opts => (f, lowerBytes m, opts))) = _
  rw [rqOptionsPart_optsWire o ho hl]
  rfl

theorem split_opcode_pack16 (op : Nat) (hop : op < 256) (body : Bytes) :
    split_opcode (pack16 op ++ body) = .ok (op, body) := by
  show split_opcode (byte (op / 256) :: byte op :: body) = .ok (op, body)
  rw [split_opcode]
  have e : (byte (op / 256)).val * 256 + (byte op).val = op := by
    simp only [byte]
    omega
  rw [e]

theorem decode_pack16 (op : Nat) (hop : op < 256) (body : Bytes) :
    decode (pack16 op ++ body) = dispatch op body := by
  unfold decode
  rw [split_opcode_pack16 op hop body]

/-- C1: for every well-formed packet of any of the six TFTP kinds,
decoding the bytes produced by encoding it (splitting off the two-byte
big-endian opcode and dispatching to the per-opcode parser) yields the
same packet, except that the mode of RRQ/WRQ comes back lowercased. -/
theorem C1_decode_toWire (p : Packet) (h : wellFormed p) :
    decode (toWire p) = .ok (lowerModePacket p) := by
  cases p with
  | rrq f m o =>
    simp only [wellFormed] at h
    obtain ⟨hf, hm, ho, hl⟩ := h
    rw [toWire, decode_pack16 1 (by norm_num)]
    simp only [dispatch, if_pos rfl]
    rw [rqFromWire_rqBody f m o hf hm ho hl]
    rfl
  | wrq f m o =>
    simp only [wellFormed] at h
    obtain ⟨hf, hm, ho, hl⟩ := h
    rw [toWire, decode_pack16 2 (by norm_num)]
    simp only [dispatch]
    norm_num
    rw [rqFromWire_rqBody f m o hf hm ho hl]
    rfl
  | data bn d =>
    simp only [wellFormed] at h
    rw [toWire, List.append_assoc, decode_pack16 3 (by norm_num)]
    simp only [dispatch]
    norm_num
    show dataFromWire (byte (bn / 256) :: byte bn :: d) = _
    rw [dataFromWire]
    have e : (byte (bn / 256)).val * 256 + (byte bn).val = bn := by
      simp only [byte]
      omega
    rw [e]
    rfl
  | ack bn =>
    simp only [wellFormed] at h
    rw [toWire, decode_pack16 4 (by norm_num)]
    simp only [dispatch]
    norm_num
    show ackFromWire [byte (bn / 256), byte bn] = _
    rw [ackFromWire]
    have e : (byte (bn / 256)).val * 256 + (byte bn).val = bn := by
      simp only [byte]
      omega
    rw [e]
    rfl
  | err c msg =>
    simp only [wellFormed] at h
    obtain ⟨hc, hnul, hdef⟩ := h
    rw [toWire, List.append_assoc, List.append_assoc, decode_pack16 5 (by norm_num)]
    simp only [dispatch]
    norm_num
    show errFromWire (byte (c / 256) :: byte c :: (msg ++ [(0 : Byte)])) = _
    rw [errFromWire]
    have e : (byte (c / 256)).val * 256 + (byte c).val = c := by
      simp only [byte]
      omega
    rw [e, if_pos hc,
        show msg ++ [(0 : Byte)] = msg ++ (0 : Byte) :: [] from rfl,
        splitNul_append_nul msg hnul]
    show Except.ok (Packet.err c (if msg = [] then errors c else msg)) = _
    by_cases hm : msg = []
    · rcases hdef with hc0 | hne
      · subst hc0
        rw [if_pos hm, hm]
        rfl
      · exact absurd hm hne
    · rw [if_neg hm]
      rfl
  | oack o =>
    simp only [wellFormed] at h
    rw [toWire, decode_pack16 6 (by norm_num)]
    simp only [dispatch]
    norm_num
    rw [oackParse_optsWire o h]
    rfl

/-- C1 witness: the round-trip theorem instantiated at a read request with
mixed-case mode and one option. -/
theorem C1_decode_toWire_witness :
    wellFormed samplePacket ∧
    decode (toWire samplePacket) =
      .ok (.rrq [102, 111, 111] [111, 99, 116, 101, 116]
        [([98, 108, 107, 115, 105, 122, 101], [56])]) :=
  ⟨by decide, (C1_decode_toWire samplePacket (by decide)).trans (by decide)⟩

theorem lowerByte_idem (b : Byte) : lowerByte (lowerByte b) = lowerByte b := by
  by_cases h : 65 ≤ b.val ∧ b.val ≤ 90
  · have hv : (lowerByte b).val = b.val + 32 := by
      rw [lowerByte, if_pos h]
      show (b.val + 32) % 256 = b.val + 32
      omega
    nth_rewrite 1 [lowerByte]
    rw [if_neg (by rw [hv]; omega)]
  · have hv : lowerByte b = b := by rw [lowerByte, if_neg h]
    rw [hv]
    exact hv

theorem lowerBytes_idem (m : Bytes) : lowerBytes (lowerBytes m) = lowerBytes m := by
  unfold lowerBytes
  rw [List.map_map]
  exact List.map_congr_left (fun b _ => lowerByte_idem b)

/-- C10: every RRQ/WRQ object carries a fully-lowercase mode because the
constructor lowercases it (lowering the stored mode again changes
nothing), and hence `to_wire` emits the lowercased mode field even when
the caller supplied an upper- or mixed-case mode. -/
theorem C10_constructor_lowercases_mode (f m : Bytes) (o : List (Bytes × Bytes)) :
    lowerBytes (lowerBytes m) = lowerBytes m ∧
    toWire (mkRRQ f m o) =
      pack16 1 ++ (f ++ (0 : Byte) :: (lowerBytes m ++ (0 : Byte) :: optsWire o)) ∧
    toWire (mkWRQ f m o) =
      pack16 2 ++ (f ++ (0 : Byte) :: (lowerBytes m ++ (0 : Byte) :: optsWire o)) :=
  ⟨lowerBytes_idem m, rfl, rfl⟩

/-- C3: a blksize option value is accepted exactly when it is an integer
in [8, 65464]: then it appears in the acknowledged set and the session's
block_size becomes that integer; a non-integer or out-of-range value is
dropped and the session keeps block_size 512. -/
theorem C3_blksize_validation (v : Bytes) :
    (∀ n, parseDecimal v = some n → 8 ≤ n → n ≤ 65464 →
        processOptions [(blksizeKey, v)] = [(blksizeKey, v)] ∧
        (applyOptions {} (processOptions [(blksizeKey, v)])).block_size = n) ∧
    ((∀ n, parseDecimal v = some n → n < 8 ∨ 65464 < n) →
        processOptions [(blksizeKey, v)] = [] ∧
        (applyOptions {} (processOptions [(blksizeKey, v)])).block_size = 512) := by
  constructor
  · intro n hn h8 h65
    have hacc : processOptions [(blksizeKey, v)] = [(blksizeKey, v)] := by
      simp [processOptions, processOption, hn, h8, h65]
    refine ⟨hacc, ?_⟩
    rw [hacc]
    simp [applyOptions, applyOption, hn]
  · intro hout
    have hdrop : processOptions [(blksizeKey, v)] = [] := by
      cases hp : parseDecimal v with
      | none => simp [processOptions, processOption, hp]
      | some n =>
        have hcond : ¬ (8 ≤ n ∧ n ≤ 65464) := by
          rcases hout n hp with h1 | h1 <;> omega
        simp [processOptions, processOption, hp, hcond]
    refine ⟨hdrop, ?_⟩
    rw [hdrop]
    rfl

/-- C3 witness: blksize 8 accepted as 8; blksize 7 dropped, keeping 512. -/
theorem C3_blksize_validation_witness :
    (processOptions [(blksizeKey, [56])] = [(blksizeKey, [56])] ∧
      (applyOptions {} (processOptions [(blksizeKey, [56])])).block_size = 8) ∧
    (processOptions [(blksizeKey, [55])] = [] ∧
      (applyOptions {} (processOptions [(blksizeKey, [55])])).block_size = 512) :=
  ⟨(C3_blksize_validation [56]).1 8 (by decide) (by decide) (by decide),
   (C3_blksize_validation [55]).2 (fun n hn => by
      have h7 : (7 : Nat) = n :=
        Option.some.inj ((by decide : parseDecimal [55] = some 7).symm.trans hn)
      omega)⟩

/-- C2 counterexample: for the blksize value 65465 (strictly above 65464)
the acknowledged set does not contain blksize with the clamped value
65464, and the session's block_size stays 512 — the repository test
`TestOptionProcessing.test_blksize` asserts exactly this dropping
behaviour, refuting the claimed clamping. -/
theorem C2_blksize_clamp_cex :
    ¬ ((blksizeKey, [54, 53, 52, 54, 52]) ∈
          processOptions [(blksizeKey, [54, 53, 52, 54, 53])] ∧
        (applyOptions {}
          (processOptions [(blksizeKey, [54, 53, 52, 54, 53])])).block_size = 65464) := by
  decide

/-- C2 (amended): every blksize option value strictly above 65464 is
dropped, not clamped: the acknowledged option set is empty and the
session's block_size stays at the default 512. -/
theorem C2_blksize_above_max_dropped (v : Bytes) (n : Nat)
    (hn : parseDecimal v = some n) (hgt : 65464 < n) :
    processOptions [(blksizeKey, v)] = [] ∧
    (applyOptions {} (processOptions [(blksizeKey, v)])).block_size = 512 := by
  have hcond : ¬ (8 ≤ n ∧ n ≤ 65464) := by omega
  have hdrop : processOptions [(blksizeKey, v)] = [] := by
    simp [processOptions, processOption, hn, hcond]
  refine ⟨hdrop, ?_⟩
  rw [hdrop]
  rfl

/-- C2 witness: the amended theorem at the concrete value 65465. -/
theorem C2_blksize_above_max_dropped_witness :
    processOptions [(blksizeKey, [54, 53, 52, 54, 53])] = [] ∧
    (applyOptions {}
      (processOptions [(blksizeKey, [54, 53, 52, 54, 53])])).block_size = 512 :=
  C2_blksize_above_max_dropped [54, 53, 52, 54, 53] 65465 (by decide) (by decide)

/-- C8: a datagram arriving from an address other than the session's
bound remote TID is answered with an ERROR code 5 (unknown transfer ID)
sent to the offending address; the session state is unchanged, so a
subsequent datagram from the bound peer is processed exactly as if the
mismatched datagram had never arrived. -/
theorem C8_tid_guard (s : BootstrapSession) (p q : Packet) (addr : Addr)
    (h : addr ≠ s.remote) :
    (datagramReceived s p addr).1 = s ∧
    (datagramReceived s p addr).2 = [(.err 5 (errors 5), addr)] ∧
    datagramReceived (datagramReceived s p addr).1 q s.remote =
      datagramReceived s q s.remote := by
  have e : datagramReceived s p addr = (s, [(.err 5 (errors 5), addr)]) := by
    rw [datagramReceived, if_neg h]
  exact ⟨by rw [e], by rw [e], by rw [e]⟩

/-- C8 witness: a session bound to port 65465 receiving an ACK from port
1111 sends ERROR 5 to port 1111, keeps its state, and still processes the
bound peer's next DATA as before. -/
theorem C8_tid_guard_witness :
    (datagramReceived ⟨⟨127, 65465⟩, 1, true⟩ (.ack 123) ⟨127, 1111⟩).1 =
        ⟨⟨127, 65465⟩, 1, true⟩ ∧
    (datagramReceived ⟨⟨127, 65465⟩, 1, true⟩ (.ack 123) ⟨127, 1111⟩).2 =
        [(.err 5 (errors 5), ⟨127, 1111⟩)] ∧
    datagramReceived (datagramReceived ⟨⟨127, 65465⟩, 1, true⟩ (.ack 123) ⟨127, 1111⟩).1
        (.data 1 [102]) ⟨127, 65465⟩ =
      datagramReceived ⟨⟨127, 65465⟩, 1, true⟩ (.data 1 [102]) ⟨127, 65465⟩ :=
  C8_tid_guard ⟨⟨127, 65465⟩, 1, true⟩ (.ack 123) (.data 1 [102]) ⟨127, 1111⟩ (by decide)

end TxTftp
